import Mathlib

/-!
Verification of the `stackalloc` library (stackalloc.h and its .cpp
implementation file) against its natural-language specification.

The embedding models:
 - the byte-addressed memory that containers write into (`Mem`,
   `writeBytes`, `readBytes`; C++ `memcpy` of an object representation
   becomes writing the list of its bytes);
 - `basic_vector<T>` as a pair of byte pointers `end_`/`begin` (source
   fields `end`, `begin`) with element size `sz` = `sizeof(T)` passed
   explicitly, and its operations `push_back`, `pop_back`, `operator[]`,
   `back`, `pop`, `size` translated line by line;
 - the process-wide stack pool (`acquire_stack` / `release_stack`) over a
   table of `DEFAULT_MAX_STACKS` stacks, with the `size_t` counters
   `locked` / `allocated` kept as `Nat` and every `++`/`--` taken
   explicitly mod 2^64;
 - the container variants `vector` (growable), `vector_max` and
   `vector_pool` as state transformers over pool state and memory.

Pointers are modelled as natural-number addresses.  The platform layer
(`alloc_stack_address_space`, i.e. `mmap`/`VirtualAlloc`) is an OS call;
following the spec's contract "reserve(size) -> base pointer" it is
modelled as a deterministic reservation that hands the k-th stack a fresh,
disjoint, nonzero address range (`addrOf`), and reservation is assumed to
succeed.
-/

namespace sa

/-- Word size of the machine: `size_t` and pointers are 64 bits wide. -/
def W64 : Nat := 2 ^ 64

/-- Increment of a `size_t` value (wraps at 2^64). -/
def succ64 (n : Nat) : Nat := (n + 1) % W64

/-- Decrement of a `size_t` value (wraps at 2^64). -/
def pred64 (n : Nat) : Nat := (n + (W64 - 1)) % W64

theorem W64_eq : W64 = 18446744073709551616 := by norm_num [W64]

theorem succ64_eq {n : Nat} (h : n + 1 < W64) : succ64 n = n + 1 := by
  rw [W64_eq] at h
  simp only [succ64, W64_eq]
  omega

theorem pred64_eq {n : Nat} (h1 : 1 ≤ n) (h2 : n < W64) : pred64 n = n - 1 := by
  rw [W64_eq] at h2
  simp only [pred64, W64_eq]
  omega

/-- Byte-addressed memory: each address holds one byte value. -/
def Mem : Type := Nat → Nat

/-- Write one byte at address `a`. -/
def memWrite (m : Mem) (a b : Nat) : Mem := fun x => if x = a then b else m x

/-- Write the byte list `t` starting at address `a` (the effect of
`memcpy(a, &t, t.length)`). -/
def writeBytes (m : Mem) (a : Nat) : List Nat → Mem
  | [] => m
  | b :: bs => writeBytes (memWrite m a b) (a + 1) bs

/-- Read `n` bytes starting at address `a`. -/
def readBytes (m : Mem) (a n : Nat) : List Nat :=
  (List.range n).map (fun i => m (a + i))

/-- The container core `basic_vector<T>`: a pair of byte pointers, source
fields `uint8_t *end; uint8_t *begin;` (`end` is a Lean keyword, hence
`end_`).  The element type `T` enters only through `sizeof(T)`, passed to
each operation as `sz`; a value of `T` is its object representation, a list
of `sz` bytes. -/
structure basic_vector where
  end_ : Nat
  begin : Nat
deriving DecidableEq

/-- Constructor `basic_vector(uint8_t *sp) : end(sp), begin(sp)`. -/
def bv_init (sp : Nat) : basic_vector := { end_ := sp, begin := sp }

/-- `push_back(const T &t) { memcpy(end, &t, sizeof(T)); end += sizeof(T); }`
(no capacity check). -/
def push_back (sz : Nat) (m : Mem) (v : basic_vector) (t : List Nat) :
    Mem × basic_vector :=
  (writeBytes m v.end_ t, { v with end_ := v.end_ + sz })

/-- `pop_back() { assert(end > begin); end -= sizeof(T); }`; the assertion is
a hypothesis of the theorems that use it. -/
def pop_back (sz : Nat) (v : basic_vector) : basic_vector :=
  { v with end_ := v.end_ - sz }

/-- Address of element `i`: `reinterpret_cast<T *>(begin) + i`. -/
def elemAddr (sz : Nat) (v : basic_vector) (i : Nat) : Nat := v.begin + i * sz

/-- `operator[](size_t i)`: the object representation found at
`begin + i * sizeof(T)` (the source asserts `i * sizeof(T) < end - begin`). -/
def elemAt (sz : Nat) (m : Mem) (v : basic_vector) (i : Nat) : List Nat :=
  readBytes m (v.begin + i * sz) sz

/-- `back()`: the object representation at `end - sizeof(T)`. -/
def back (sz : Nat) (m : Mem) (v : basic_vector) : List Nat :=
  readBytes m (v.end_ - sz) sz

/-- `pop() { assert(end > begin); end -= sizeof(T); return *(T *)end; }`:
returns the address the reference points at, the bytes there, and the
updated vector. -/
def pop (sz : Nat) (m : Mem) (v : basic_vector) :
    Nat × List Nat × basic_vector :=
  (v.end_ - sz, readBytes m (v.end_ - sz) sz, { v with end_ := v.end_ - sz })

/-- `size() { return (begin - end) / sizeof(T); }` — translated exactly as
written: `begin - end` is a signed pointer difference which the division by
the unsigned `sizeof(T)` converts to `size_t`, i.e. reduces mod 2^64 before
the unsigned division. -/
def size (sz : Nat) (v : basic_vector) : Nat :=
  (((v.begin : Int) - (v.end_ : Int)) % (W64 : Int)).toNat / sz

/-- Number of elements described by the byte span, `(end - begin)/sizeof(T)`:
the element count that §4.3 of the spec ("`size()` derives element count
from the byte span") describes. -/
def elem_count (sz : Nat) (v : basic_vector) : Nat := (v.end_ - v.begin) / sz

/-- Fold of `push_back` over a list of element representations. -/
def pushAll (sz : Nat) (m : Mem) (v : basic_vector) :
    List (List Nat) → Mem × basic_vector
  | [] => (m, v)
  | t :: ts =>
    let p := push_back sz m v t
    pushAll sz p.1 p.2 ts

/-- C1: evaluation of the code at the failing input.  One `push_back` of a
4-byte element (`int`) onto an empty `basic_vector` rooted at address 0,
then `size()`: the source's `(begin - end) / sizeof(T)` yields
`(0 - 4 mod 2^64) / 4 = 2^62 - 1`, not the 1 push minus 0 pops the spec
states — the operands of the subtraction are swapped in the code. -/
theorem size_one_push_eval :
    size 4 (push_back 4 (fun _ => 0) (bv_init 0) [1, 2, 3, 4]).2 = 2 ^ 62 - 1 ∧
      2 ^ 62 - 1 ≠ 1 := by
  constructor
  · decide
  · decide

/-! ### Memory lemmas -/

theorem writeBytes_out_lt (t : List Nat) (m : Mem) (a x : Nat) (h : x < a) :
    writeBytes m a t x = m x := by
  induction t generalizing m a with
  | nil => rfl
  | cons b bs ih =>
    show writeBytes (memWrite m a b) (a + 1) bs x = m x
    rw [ih _ (a + 1) (by omega)]
    simp only [memWrite]
    rw [if_neg (by omega)]

theorem writeBytes_out_ge (t : List Nat) (m : Mem) (a x : Nat)
    (h : a + t.length ≤ x) : writeBytes m a t x = m x := by
  induction t generalizing m a with
  | nil => rfl
  | cons b bs ih =>
    simp only [List.length_cons] at h
    show writeBytes (memWrite m a b) (a + 1) bs x = m x
    rw [ih _ (a + 1) (by omega)]
    simp only [memWrite]
    rw [if_neg (by omega)]

theorem readBytes_congr {m1 m2 : Mem} (a n : Nat)
    (h : ∀ x, a ≤ x → x < a + n → m1 x = m2 x) :
    readBytes m1 a n = readBytes m2 a n := by
  simp only [readBytes]
  apply List.map_congr_left
  intro i hi
  have hin : i < n := List.mem_range.mp hi
  exact h (a + i) (by omega) (by omega)

theorem readBytes_succ (m : Mem) (a n : Nat) :
    readBytes m a (n + 1) = m a :: readBytes m (a + 1) n := by
  simp only [readBytes, List.range_succ_eq_map, List.map_cons, List.map_map,
    Nat.add_zero]
  congr 1
  apply List.map_congr_left
  intro i _
  simp only [Function.comp_apply]
  congr 1
  omega

theorem readBytes_writeBytes (t : List Nat) (m : Mem) (a : Nat) :
    readBytes (writeBytes m a t) a t.length = t := by
  induction t generalizing m a with
  | nil => rfl
  | cons b bs ih =>
    show readBytes (writeBytes (memWrite m a b) (a + 1) bs) a (bs.length + 1)
      = b :: bs
    rw [readBytes_succ, ih, writeBytes_out_lt bs _ (a + 1) a (by omega)]
    simp [memWrite]

/-- Combined effect of a sequence of `push_back` calls: `begin` is fixed,
`end` advances by `sizeof(T)` per push, bytes below the old `end` are
untouched, and the bytes of the i-th pushed element sit at offset
`i * sizeof(T)` from the old `end`. -/
theorem pushAll_spec (sz : Nat) (hsz : 0 < sz) :
    ∀ (ts : List (List Nat)) (m : Mem) (v : basic_vector),
      (∀ t ∈ ts, t.length = sz) →
      (pushAll sz m v ts).2.begin = v.begin ∧
      (pushAll sz m v ts).2.end_ = v.end_ + ts.length * sz ∧
      (∀ x, x < v.end_ → (pushAll sz m v ts).1 x = m x) ∧
      (∀ i, i < ts.length →
        readBytes (pushAll sz m v ts).1 (v.end_ + i * sz) sz = ts.getD i []) := by
  intro ts
  induction ts with
  | nil =>
    intro m v _
    exact ⟨rfl, by simp [pushAll], fun x _ => rfl, fun i hi => absurd hi (by simp)⟩
  | cons t ts ih =>
    intro m v hlen
    have ht : t.length = sz := hlen t (by simp)
    have hts : ∀ u ∈ ts, u.length = sz := fun u hu => hlen u (by simp [hu])
    have hunfold : pushAll sz m v (t :: ts) =
        pushAll sz (writeBytes m v.end_ t) { v with end_ := v.end_ + sz } ts := rfl
    obtain ⟨ihb, ihe, ihp, ihr⟩ :=
      ih (writeBytes m v.end_ t) { v with end_ := v.end_ + sz } hts
    refine ⟨?_, ?_, ?_, ?_⟩
    · rw [hunfold]
      exact ihb
    · rw [hunfold, ihe]
      simp only [List.length_cons]
      ring
    · intro x hx
      rw [hunfold, ihp x (by show x < v.end_ + sz; omega)]
      exact writeBytes_out_lt t m v.end_ x hx
    · intro i hi
      rw [hunfold]
      match i with
      | 0 =>
        simp only [Nat.zero_mul, Nat.add_zero, List.getD_cons_zero]
        have hcongr : readBytes
            (pushAll sz (writeBytes m v.end_ t) { v with end_ := v.end_ + sz } ts).1
            v.end_ sz = readBytes (writeBytes m v.end_ t) v.end_ sz := by
          apply readBytes_congr
          intro x hx1 hx2
          apply ihp
          show x < v.end_ + sz
          omega
        rw [hcongr, ← ht]
        exact readBytes_writeBytes t m v.end_
      | j + 1 =>
        simp only [List.getD_cons_succ]
        have hj : j < ts.length := by
          simp only [List.length_cons] at hi
          omega
        have haddr : v.end_ + (j + 1) * sz = v.end_ + sz + j * sz := by ring
        rw [haddr]
        exact ihr j hj

/-- C2: for every sequence of `push_back` calls on an initially empty
`basic_vector` and every index `i` below the element count, `operator[](i)`
reads back exactly the bytes of the i-th pushed value: stored values
round-trip through `push_back` and `operator[]`. -/
theorem push_back_index_roundtrip (sz : Nat) (m : Mem) (p : Nat)
    (ts : List (List Nat)) (hsz : 0 < sz) (hlen : ∀ t ∈ ts, t.length = sz)
    (i : Nat) (hi : i < ts.length) :
    elemAt sz (pushAll sz m (bv_init p) ts).1 (pushAll sz m (bv_init p) ts).2 i
      = ts.getD i [] := by
  obtain ⟨hb, he, hp, hr⟩ := pushAll_spec sz hsz ts m (bv_init p) hlen
  rw [elemAt, hb]
  exact hr i hi

/-- C2 witness: pushing the byte values 5 then 7 (element size 1) and
indexing at 1 reads back 7. -/
theorem push_back_index_roundtrip_witness :
    elemAt 1 (pushAll 1 (fun _ => 0) (bv_init 0) [[5], [7]]).1
      (pushAll 1 (fun _ => 0) (bv_init 0) [[5], [7]]).2 1 = [7] :=
  (push_back_index_roundtrip 1 (fun _ => 0) 0 [[5], [7]] (by decide)
    (by decide) 1 (by decide)).trans (by decide)

/-- C10: on a non-empty `basic_vector` built by pushes, `pop()` returns the
bytes of the most recently pushed element, the returned reference points at
the slot just past the new `end`, and the element count drops by one. -/
theorem pop_returns_former_back (sz : Nat) (m : Mem) (p : Nat)
    (ts : List (List Nat)) (hsz : 0 < sz) (hne : ts ≠ [])
    (hlen : ∀ t ∈ ts, t.length = sz) :
    (pop sz (pushAll sz m (bv_init p) ts).1 (pushAll sz m (bv_init p) ts).2).2.1
        = ts.getD (ts.length - 1) [] ∧
      (pop sz (pushAll sz m (bv_init p) ts).1 (pushAll sz m (bv_init p) ts).2).1
        = (pop sz (pushAll sz m (bv_init p) ts).1
            (pushAll sz m (bv_init p) ts).2).2.2.end_ ∧
      elem_count sz (pop sz (pushAll sz m (bv_init p) ts).1
          (pushAll sz m (bv_init p) ts).2).2.2 = ts.length - 1 := by
  obtain ⟨hb, he, hp, hr⟩ := pushAll_spec sz hsz ts m (bv_init p) hlen
  obtain ⟨k, hk⟩ : ∃ k, ts.length = k + 1 := by
    cases ts with
    | nil => exact absurd rfl hne
    | cons t ts => exact ⟨ts.length, by simp⟩
  have hbv : (bv_init p).end_ = p := rfl
  have hbb : (bv_init p).begin = p := rfl
  refine ⟨?_, rfl, ?_⟩
  · show readBytes (pushAll sz m (bv_init p) ts).1
        ((pushAll sz m (bv_init p) ts).2.end_ - sz) sz = ts.getD (ts.length - 1) []
    have haddr : (pushAll sz m (bv_init p) ts).2.end_ - sz = p + k * sz := by
      rw [he, hbv, hk, Nat.succ_mul]
      omega
    rw [haddr, hk]
    have := hr k (by omega)
    rw [hbv] at this
    simpa using this
  · show ((pushAll sz m (bv_init p) ts).2.end_ - sz -
        (pushAll sz m (bv_init p) ts).2.begin) / sz = ts.length - 1
    rw [he, hb, hbv, hbb, hk, Nat.succ_mul]
    have : p + (k * sz + sz) - sz - p = k * sz := by omega
    rw [this]
    simp [Nat.mul_div_cancel_left, Nat.mul_div_cancel, hsz]

/-- C10 witness: after pushing 5 then 7 (element size 1), `pop()` returns
the bytes of 7, its reference sits at the new `end`, and one element is
left. -/
theorem pop_returns_former_back_witness :
    (pop 1 (pushAll 1 (fun _ => 0) (bv_init 0) [[5], [7]]).1
        (pushAll 1 (fun _ => 0) (bv_init 0) [[5], [7]]).2).2.1 = [7] ∧
      (pop 1 (pushAll 1 (fun _ => 0) (bv_init 0) [[5], [7]]).1
          (pushAll 1 (fun _ => 0) (bv_init 0) [[5], [7]]).2).1
        = (pop 1 (pushAll 1 (fun _ => 0) (bv_init 0) [[5], [7]]).1
            (pushAll 1 (fun _ => 0) (bv_init 0) [[5], [7]]).2).2.2.end_ ∧
      elem_count 1 (pop 1 (pushAll 1 (fun _ => 0) (bv_init 0) [[5], [7]]).1
          (pushAll 1 (fun _ => 0) (bv_init 0) [[5], [7]]).2).2.2 = 1 := by
  have h := pop_returns_former_back 1 (fun _ => 0) 0 [[5], [7]] (by decide)
    (by decide) (by decide)
  exact ⟨h.1.trans (by decide), h.2.1, h.2.2⟩

/-! ### The process-wide stack pool -/

/-- `DEFAULT_LARGE_STACK = 1ULL << 36`. -/
def DEFAULT_LARGE_STACK : Nat := 2 ^ 36

/-- `DEFAULT_MAX_STACKS = 1ULL << 10`. -/
def DEFAULT_MAX_STACKS : Nat := 2 ^ 10

theorem MAX_eq : DEFAULT_MAX_STACKS = 1024 := by norm_num [DEFAULT_MAX_STACKS]

/-- The `stack` struct: bump pointer `sp`, reservation base `memory`,
reserved byte length `size`. -/
structure stack where
  sp : Nat
  memory : Nat
  size : Nat
deriving DecidableEq

/-- The zero-initialized `stack` value the static array starts with. -/
def zstack : stack := { sp := 0, memory := 0, size := 0 }

/-- Modelled from the spec: `alloc_stack_address_space` is the platform
reservation call (`mmap` / `VirtualAlloc`), whose contract per §4.1 is
"reserve(size) -> base pointer"; reservation is assumed to succeed and is
modelled deterministically as handing the k-th materialized stack the
fresh, disjoint, nonzero range starting at `(k+1) * DEFAULT_LARGE_STACK`. -/
def addrOf (k : Nat) : Nat := (k + 1) * DEFAULT_LARGE_STACK

/-- `stack::alloc(_size)`: `sp = memory = alloc_stack_address_space(size = _size)`
for the k-th reservation. -/
def stack_alloc (k : Nat) (s : Nat) : stack :=
  { sp := addrOf k, memory := addrOf k, size := s }

/-- The pool's process-wide state: `static size_t locked`, `static size_t
allocated`, and the static array `stack stacks[DEFAULT_MAX_STACKS]`. -/
structure PoolState where
  locked : Nat
  allocated : Nat
  stacks_ : List stack
deriving DecidableEq

/-- The zero-initialized static pool state at program start. -/
def initPool : PoolState :=
  { locked := 0, allocated := 0,
    stacks_ := List.replicate DEFAULT_MAX_STACKS zstack }

/-- `acquire_stack()`: if `allocated == locked`, either the fatal path
(`allocated == DEFAULT_MAX_STACKS`: `assert(false); abort()`, modelled as
`none` with the state untouched) or materialization of
`stacks[allocated++]`; then `return &stacks[locked++]` (the returned slot
index).  Counter increments are `size_t` increments, mod 2^64. -/
def acquire_stack (p : PoolState) : Option Nat × PoolState :=
  if p.allocated = p.locked then
    if p.allocated = DEFAULT_MAX_STACKS then (none, p)
    else
      (some p.locked,
        { locked := succ64 p.locked,
          allocated := succ64 p.allocated,
          stacks_ := p.stacks_.set p.allocated
            (stack_alloc p.allocated DEFAULT_LARGE_STACK) })
  else (some p.locked, { p with locked := succ64 p.locked })

/-- `release_stack() { locked--; }` (a `size_t` decrement, mod 2^64). -/
def release_stack (p : PoolState) : PoolState :=
  { p with locked := pred64 p.locked }

/-- The pool invariant of §3: `0 ≤ locked ≤ allocated ≤ MAX_STACKS`
(`0 ≤ locked` is inherent to the unsigned counter), together with the
static size of the slot table. -/
def poolInv (p : PoolState) : Prop :=
  p.locked ≤ p.allocated ∧ p.allocated ≤ DEFAULT_MAX_STACKS ∧
    p.stacks_.length = DEFAULT_MAX_STACKS

/-! ### List helpers for the slot table -/

theorem getD_set_ne {α : Type} (l : List α) (i j : Nat) (a d : α) (h : i ≠ j) :
    (l.set i a).getD j d = l.getD j d := by
  induction l generalizing i j with
  | nil => rfl
  | cons x xs ih =>
    cases i with
    | zero =>
      cases j with
      | zero => exact absurd rfl h
      | succ k => simp [List.getD_cons_succ]
    | succ i' =>
      cases j with
      | zero => simp [List.getD_cons_zero]
      | succ k =>
        simp only [List.set_cons_succ, List.getD_cons_succ]
        exact ih i' k (by omega)

theorem getD_set_self {α : Type} (l : List α) (i : Nat) (a d : α)
    (h : i < l.length) : (l.set i a).getD i d = a := by
  induction l generalizing i with
  | nil => simp at h
  | cons x xs ih =>
    cases i with
    | zero => simp [List.getD_cons_zero]
    | succ i' =>
      simp only [List.set_cons_succ, List.getD_cons_succ]
      exact ih i' (by simp only [List.length_cons] at h; omega)

/-- One successful `acquire_stack` step: the returned slot is
`&stacks[locked]`, `locked` increments, `allocated` becomes
`max allocated (locked + 1)`, other slots are untouched, and the returned
slot is freshly materialized exactly when `allocated == locked`. -/
theorem acquire_stack_spec (p : PoolState) (hinv : poolInv p)
    (hlt : p.locked < DEFAULT_MAX_STACKS) :
    (acquire_stack p).1 = some p.locked ∧
      (acquire_stack p).2.locked = p.locked + 1 ∧
      (acquire_stack p).2.allocated = max p.allocated (p.locked + 1) ∧
      (acquire_stack p).2.stacks_.length = p.stacks_.length ∧
      (∀ i, i ≠ p.locked →
        (acquire_stack p).2.stacks_.getD i zstack = p.stacks_.getD i zstack) ∧
      (acquire_stack p).2.stacks_.getD p.locked zstack =
        (if p.allocated = p.locked then stack_alloc p.locked DEFAULT_LARGE_STACK
          else p.stacks_.getD p.locked zstack) := by
  obtain ⟨h1, h2, h3⟩ := hinv
  have hmax := MAX_eq
  have hw := W64_eq
  simp only [acquire_stack]
  split_ifs with ha hb
  · omega
  · refine ⟨rfl, ?_, ?_, ?_, ?_, ?_⟩
    · exact succ64_eq (by omega)
    · show succ64 p.allocated = max p.allocated (p.locked + 1)
      rw [succ64_eq (by omega)]
      omega
    · exact List.length_set p.stacks_ _ _
    · intro i hi
      exact getD_set_ne p.stacks_ p.allocated i _ zstack (by omega)
    · show (p.stacks_.set p.allocated _).getD p.locked zstack = _
      rw [ha]
      exact getD_set_self p.stacks_ p.locked _ zstack (by omega)
  · refine ⟨rfl, succ64_eq (by omega), ?_, rfl, fun i _ => rfl, rfl⟩
    show p.allocated = max p.allocated (p.locked + 1)
    omega

/-- C8: with `allocated == MAX_STACKS` and every stack locked, a further
`acquire_stack()` takes the fatal path (`assert(false); abort()`): it
returns no stack and leaves the slot table and both counters exactly as
they were.  Since `acquire_stack` is a function of the pool state, the
fatal path is the same deterministic one on every such call. -/
theorem acquire_exhausted_fatal (p : PoolState)
    (hall : p.allocated = DEFAULT_MAX_STACKS)
    (hlock : p.locked = DEFAULT_MAX_STACKS) :
    (acquire_stack p).1 = none ∧ (acquire_stack p).2 = p := by
  simp [acquire_stack, hall, hlock]

/-- C8 witness: the fully-exhausted pool (1024 stacks allocated, all 1024
locked) makes `acquire_stack` abort without returning and without any state
change. -/
theorem acquire_exhausted_fatal_witness :
    (acquire_stack (PoolState.mk 1024 1024 (List.replicate 1024 zstack))).1
        = none ∧
      (acquire_stack (PoolState.mk 1024 1024 (List.replicate 1024 zstack))).2
        = PoolState.mk 1024 1024 (List.replicate 1024 zstack) :=
  acquire_exhausted_fatal _ MAX_eq.symm MAX_eq.symm

/-- N consecutive `acquire_stack()` calls, collecting the returned slot
indices; `none` if any call takes the fatal path. -/
def acquireN : Nat → PoolState → Option (List Nat × PoolState)
  | 0, p => some ([], p)
  | n + 1, p =>
    ((acquire_stack p).1).bind fun i =>
      (acquireN n (acquire_stack p).2).map fun r => (i :: r.1, r.2)

/-- N consecutive `release_stack()` calls (`release_stack` composed N
times). -/
def releaseN : Nat → PoolState → PoolState
  | 0, p => p
  | n + 1, p => release_stack (releaseN n p)

theorem range_map_shift (c N : Nat) :
    (List.range (N + 1)).map (fun k => c + k)
      = c :: (List.range N).map (fun k => c + 1 + k) := by
  rw [List.range_succ_eq_map, List.map_cons, List.map_map]
  simp only [Nat.add_zero]
  congr 1
  apply List.map_congr_left
  intro i _
  simp only [Function.comp_apply]
  omega

/-- Running `acquireN` from a state whose invariant holds and with room for
N more locks succeeds, returns the slot indices `locked, locked+1, …,
locked+N-1` in order, and leaves `locked + N` locked with
`max allocated (locked + N)` allocated. -/
theorem acquireN_spec (N : Nat) :
    ∀ p : PoolState, poolInv p → p.locked + N ≤ DEFAULT_MAX_STACKS →
      ∃ p' : PoolState,
        acquireN N p = some ((List.range N).map (fun k => p.locked + k), p') ∧
          p'.locked = p.locked + N ∧
          p'.allocated = max p.allocated (p.locked + N) ∧
          p'.stacks_.length = p.stacks_.length := by
  induction N with
  | zero =>
    intro p hinv _
    obtain ⟨h1, h2, h3⟩ := hinv
    exact ⟨p, by simp [acquireN], by omega, by omega, rfl⟩
  | succ N ih =>
    intro p hinv hN
    obtain ⟨h1, h2, h3⟩ := hinv
    obtain ⟨hfst, hlk, hal, hln, -, -⟩ :=
      acquire_stack_spec p ⟨h1, h2, h3⟩ (by omega)
    have hinv1 : poolInv (acquire_stack p).2 := by
      refine ⟨?_, ?_, ?_⟩
      · rw [hlk, hal]; omega
      · rw [hal]; omega
      · rw [hln]; exact h3
    obtain ⟨p', hrun, hl', ha', hlen'⟩ :=
      ih (acquire_stack p).2 hinv1 (by rw [hlk]; omega)
    refine ⟨p', ?_, ?_, ?_, ?_⟩
    · simp only [acquireN]
      rw [hlk] at hrun
      rw [hfst, hrun, range_map_shift]
      rfl
    · rw [hl', hlk]; omega
    · rw [ha', hal, hlk]; omega
    · rw [hlen', hln]

theorem release_stack_def (l a : Nat) (s : List stack) :
    release_stack (PoolState.mk l a s) = PoolState.mk (pred64 l) a s := rfl

theorem release_stack_locked (p : PoolState) :
    (release_stack p).locked = pred64 p.locked := rfl

theorem release_stack_allocated (p : PoolState) :
    (release_stack p).allocated = p.allocated := by
  cases p
  rw [release_stack_def]

theorem release_stack_table (p : PoolState) :
    (release_stack p).stacks_ = p.stacks_ := by
  cases p
  rw [release_stack_def]

/-- `releaseN` decrements `locked` N times and touches nothing else. -/
theorem releaseN_spec (N : Nat) :
    ∀ p : PoolState, N ≤ p.locked → p.locked < W64 →
      (releaseN N p).locked = p.locked - N ∧
        (releaseN N p).allocated = p.allocated ∧
        (releaseN N p).stacks_ = p.stacks_ := by
  induction N with
  | zero => exact fun p _ _ => ⟨rfl, rfl, rfl⟩
  | succ N ih =>
    intro p hN hW
    obtain ⟨ha, hb, hc⟩ := ih p (by omega) hW
    have hstep : releaseN (N + 1) p = release_stack (releaseN N p) := rfl
    have hpred : pred64 (releaseN N p).locked = p.locked - N - 1 := by
      rw [ha]
      exact pred64_eq (by omega) (by omega)
    refine ⟨?_, ?_, ?_⟩
    · rw [hstep, release_stack_locked, hpred]
      omega
    · rw [hstep, release_stack_allocated]
      exact hb
    · rw [hstep, release_stack_table]
      exact hc

/-- C3: from any state satisfying the pool invariant with room for N more
locks, N `acquire_stack()` calls hand out the consecutive slot indices
`locked, …, locked+N-1`; N `release_stack()` calls then return `locked` to
its pre-sequence value, and repeating the same N acquires hands out exactly
the same slot list in the same order (LIFO reuse of the slots). -/
theorem acquire_release_lifo (p : PoolState) (N : Nat) (hinv : poolInv p)
    (hN : p.locked + N ≤ DEFAULT_MAX_STACKS) :
    ∃ p1 p3 : PoolState,
      acquireN N p = some ((List.range N).map (fun k => p.locked + k), p1) ∧
        (releaseN N p1).locked = p.locked ∧
        acquireN N (releaseN N p1)
          = some ((List.range N).map (fun k => p.locked + k), p3) := by
  obtain ⟨h1, h2, h3⟩ := hinv
  have hmax := MAX_eq
  have hw := W64_eq
  obtain ⟨p1, hrun1, hl1, ha1, hlen1⟩ := acquireN_spec N p ⟨h1, h2, h3⟩ hN
  have hrel := releaseN_spec N p1 (by omega) (by omega)
  obtain ⟨hrl, hra, hrs⟩ := hrel
  have hlocked2 : (releaseN N p1).locked = p.locked := by omega
  have hinv2 : poolInv (releaseN N p1) := by
    refine ⟨?_, ?_, ?_⟩
    · rw [hlocked2, hra]; omega
    · rw [hra]; omega
    · rw [hrs]; omega
  obtain ⟨p3, hrun3, -, -, -⟩ :=
    acquireN_spec N (releaseN N p1) hinv2 (by rw [hlocked2]; omega)
  rw [hlocked2] at hrun3
  exact ⟨p1, p3, hrun1, hlocked2, hrun3⟩

/-- C3 witness: from the fresh pool, two acquires hand out slots 0 and 1,
two releases restore `locked = 0`, and two more acquires hand out slots 0
and 1 again in the same order. -/
theorem acquire_release_lifo_witness :
    ∃ p1 p3 : PoolState,
      acquireN 2 initPool
          = some ((List.range 2).map (fun k => initPool.locked + k), p1) ∧
        (releaseN 2 p1).locked = initPool.locked ∧
        acquireN 2 (releaseN 2 p1)
          = some ((List.range 2).map (fun k => initPool.locked + k), p3) :=
  acquire_release_lifo initPool 2
    ⟨by decide, by decide, by simp [initPool, List.length_replicate]⟩ (by decide)

/-! ### Sequences of pool operations (C9) -/

theorem option_map_some {α β : Type} (f : α → β) (a : α) :
    (some a).map f = some (f a) := rfl

theorem option_map_none {α β : Type} (f : α → β) :
    (none : Option α).map f = none := rfl

theorem option_bind_some {α β : Type} (f : α → Option β) (a : α) :
    (some a).bind f = f a := rfl

theorem option_bind_none {α β : Type} (f : α → Option β) :
    (none : Option α).bind f = none := rfl

/-- One pool call: an `acquire_stack()` (fatal path = `none`) or a
`release_stack()`. -/
inductive PoolOp where
  | acq : PoolOp
  | rel : PoolOp
deriving DecidableEq

/-- Effect of one pool call on the pool state. -/
def poolStep (p : PoolState) : PoolOp → Option PoolState
  | PoolOp.acq => ((acquire_stack p).1).map (fun _ => (acquire_stack p).2)
  | PoolOp.rel => some (release_stack p)

/-- Run a sequence of pool calls; `none` once any call takes the fatal
path. -/
def poolRun : PoolState → List PoolOp → Option PoolState
  | p, [] => some p
  | p, op :: ops => (poolStep p op).bind (fun p1 => poolRun p1 ops)

/-- Number of `acquire_stack()` calls in a sequence. -/
def countAcq : List PoolOp → Nat
  | [] => 0
  | PoolOp.acq :: ops => countAcq ops + 1
  | PoolOp.rel :: ops => countAcq ops

/-- Number of `release_stack()` calls in a sequence. -/
def countRel : List PoolOp → Nat
  | [] => 0
  | PoolOp.acq :: ops => countRel ops
  | PoolOp.rel :: ops => countRel ops + 1

/-- Invariant preservation along a run, generalized over the `c` releases
the remaining sequence may still owe fewer acquires for. -/
theorem poolRun_inv_aux :
    ∀ (ops : List PoolOp) (p : PoolState) (c : Nat),
      poolInv p → c ≤ p.locked →
      (∀ n, countRel (ops.take n) ≤ countAcq (ops.take n) + c) →
      ∀ p', poolRun p ops = some p' → poolInv p' := by
  intro ops
  induction ops with
  | nil =>
    intro p c hinv _ _ p' hrun
    have h0 : poolRun p ([] : List PoolOp) = some p := rfl
    rw [h0] at hrun
    injection hrun with h
    exact h ▸ hinv
  | cons op rest ih =>
    intro p c hinv hc hbal p' hrun
    have hcons : poolRun p (op :: rest)
        = (poolStep p op).bind (fun q => poolRun q rest) := rfl
    rw [hcons] at hrun
    obtain ⟨h1, h2, h3⟩ := hinv
    have hmax := MAX_eq
    have hw := W64_eq
    cases op with
    | rel =>
      have hstep : poolStep p PoolOp.rel = some (release_stack p) := rfl
      rw [hstep, option_bind_some] at hrun
      have hc1 : 1 ≤ c := by
        have hb1 := hbal 1
        simp only [List.take_succ_cons, List.take_zero, countRel, countAcq]
          at hb1
        omega
      have hlk : (release_stack p).locked = p.locked - 1 := by
        rw [release_stack_locked]
        exact pred64_eq (by omega) (by omega)
      refine ih (release_stack p) (c - 1) ⟨?_, ?_, ?_⟩ ?_ ?_ p' hrun
      · rw [hlk, release_stack_allocated]; omega
      · rw [release_stack_allocated]; omega
      · rw [release_stack_table]; omega
      · rw [hlk]; omega
      · intro n
        have hb := hbal (n + 1)
        simp only [List.take_succ_cons, countRel, countAcq] at hb
        omega
    | acq =>
      have hstep : poolStep p PoolOp.acq
          = ((acquire_stack p).1).map (fun _ => (acquire_stack p).2) := rfl
      rw [hstep] at hrun
      by_cases hfat : p.allocated = p.locked ∧ p.allocated = DEFAULT_MAX_STACKS
      · obtain ⟨hf1, hf2⟩ := hfat
        have hfl : p.locked = DEFAULT_MAX_STACKS := by omega
        have hnone : (acquire_stack p).1 = none := by
          simp [acquire_stack, hf1, hf2, hfl]
        rw [hnone, option_map_none, option_bind_none] at hrun
        cases hrun
      · have hlt : p.locked < DEFAULT_MAX_STACKS := by
          rcases not_and_or.mp hfat with h | h
          · omega
          · omega
        obtain ⟨hfst, hlk, hal, hln, -, -⟩ :=
          acquire_stack_spec p ⟨h1, h2, h3⟩ hlt
        rw [hfst, option_map_some, option_bind_some] at hrun
        refine ih (acquire_stack p).2 (c + 1) ⟨?_, ?_, ?_⟩ ?_ ?_ p' hrun
        · rw [hlk, hal]; omega
        · rw [hal]; omega
        · rw [hln]; omega
        · rw [hlk]; omega
        · intro n
          have hb := hbal (n + 1)
          simp only [List.take_succ_cons, countRel, countAcq] at hb
          omega

/-- C9: along any sequence of `acquire_stack` / `release_stack` calls in
which releases never outnumber acquires at any prefix, the pool invariant
`0 ≤ locked ≤ allocated ≤ MAX_STACKS` holds after every step (every prefix
of the run that completes without the fatal path). -/
theorem pool_invariant_preserved (ops : List PoolOp) (p : PoolState)
    (hinv : poolInv p)
    (hbal : ∀ n, n ≤ ops.length → countRel (ops.take n) ≤ countAcq (ops.take n))
    (n : Nat) (p' : PoolState) (hrun : poolRun p (ops.take n) = some p') :
    poolInv p' := by
  refine poolRun_inv_aux (ops.take n) p 0 hinv (Nat.zero_le _) ?_ p' hrun
  intro m
  rw [List.take_take]
  rcases le_or_lt (min m n) ops.length with h | h
  · have hb := hbal (min m n) h
    omega
  · rw [List.take_of_length_le (by omega)]
    have hb := hbal ops.length (le_refl _)
    rw [List.take_length] at hb
    omega

set_option maxRecDepth 16384 in
/-- C9 witness: running acquire, acquire, release, release from the fresh
pool succeeds and ends in a state (2 stacks materialized, none locked)
satisfying the invariant. -/
theorem pool_invariant_preserved_witness :
    poolInv (PoolState.mk 0 2
      (((List.replicate 1024 zstack).set 0
          (stack_alloc 0 DEFAULT_LARGE_STACK)).set 1
        (stack_alloc 1 DEFAULT_LARGE_STACK))) :=
  pool_invariant_preserved
    [PoolOp.acq, PoolOp.acq, PoolOp.rel, PoolOp.rel] initPool
    ⟨by decide, by decide, by simp [initPool, List.length_replicate]⟩
    (by decide) 4 _ (by decide)

/-! ### vector_max (C4) -/

theorem set_table_locked (q : PoolState) (t : List stack) :
    ({ q with stacks_ := t } : PoolState).locked = q.locked := by
  cases q
  rfl

theorem set_table_allocated (q : PoolState) (t : List stack) :
    ({ q with stacks_ := t } : PoolState).allocated = q.allocated := by
  cases q
  rfl

theorem set_table_table (q : PoolState) (t : List stack) :
    ({ q with stacks_ := t } : PoolState).stacks_ = t := by
  cases q
  rfl

/-- The `vector_max` container: inherited `end`/`begin` plus the kept
`stack *st` (modelled as the slot index into the pool's table) and the
`capacity` byte pointer. -/
structure vector_max where
  end_ : Nat
  begin : Nat
  st : Nat
  capacity : Nat
deriving DecidableEq

/-- `vector_max(size_t max)` for element size `sz`:
`st(acquire_stack()), capacity(st->sp + max * sizeof(T))`, then in the body
`this->begin = this->end = st->sp; st->sp += max * sizeof(T);
release_stack();`.  `none` when `acquire_stack` takes its fatal path. -/
def vector_max_construct (sz max : Nat) (p : PoolState) :
    Option (vector_max × PoolState) :=
  ((acquire_stack p).1).map fun i =>
    ({ end_ := ((acquire_stack p).2.stacks_.getD i zstack).sp,
       begin := ((acquire_stack p).2.stacks_.getD i zstack).sp,
       st := i,
       capacity := ((acquire_stack p).2.stacks_.getD i zstack).sp + max * sz },
      release_stack { (acquire_stack p).2 with
        stacks_ := (acquire_stack p).2.stacks_.set i
          { (acquire_stack p).2.stacks_.getD i zstack with
              sp := ((acquire_stack p).2.stacks_.getD i zstack).sp + max * sz } })

/-- `~vector_max()`: `st->sp = this->begin;` — rewinds the carved region. -/
def vector_max_destroy (vm : vector_max) (p : PoolState) : PoolState :=
  { p with
      stacks_ := p.stacks_.set vm.st
        { p.stacks_.getD vm.st zstack with sp := vm.begin } }

/-- What one `vector_max` construction does: it carves
`max * sizeof(T)` bytes at the acquired stack's current `sp`, binds
`begin = end = sp` and `capacity = sp + max * sizeof(T)`, advances that
stack's `sp` by the carved amount, and releases the lock again. -/
theorem vmax_construct_spec (sz mx : Nat) (p : PoolState)
    (hinv : poolInv p) (hlt : p.locked < DEFAULT_MAX_STACKS) :
    ∃ (vm : vector_max) (p1 : PoolState),
      vector_max_construct sz mx p = some (vm, p1) ∧
        vm.st = p.locked ∧
        vm.end_ = vm.begin ∧
        vm.capacity = vm.begin + mx * sz ∧
        vm.begin = ((acquire_stack p).2.stacks_.getD p.locked zstack).sp ∧
        p1.locked = p.locked ∧
        p1.allocated = max p.allocated (p.locked + 1) ∧
        p1.stacks_.length = p.stacks_.length ∧
        p1.stacks_.getD p.locked zstack
          = { (acquire_stack p).2.stacks_.getD p.locked zstack with
                sp := vm.begin + mx * sz } := by
  obtain ⟨h1, h2, h3⟩ := hinv
  have hmax := MAX_eq
  have hw := W64_eq
  obtain ⟨hfst, hlk, hal, hln, hoth, hself⟩ :=
    acquire_stack_spec p ⟨h1, h2, h3⟩ hlt
  refine ⟨⟨((acquire_stack p).2.stacks_.getD p.locked zstack).sp,
      ((acquire_stack p).2.stacks_.getD p.locked zstack).sp, p.locked,
      ((acquire_stack p).2.stacks_.getD p.locked zstack).sp + mx * sz⟩,
    release_stack { (acquire_stack p).2 with
      stacks_ := (acquire_stack p).2.stacks_.set p.locked
        { (acquire_stack p).2.stacks_.getD p.locked zstack with
            sp := ((acquire_stack p).2.stacks_.getD p.locked zstack).sp
              + mx * sz } },
    ?_, rfl, rfl, rfl, rfl, ?_, ?_, ?_, ?_⟩
  · simp only [vector_max_construct]
    rw [hfst, option_map_some]
  · rw [release_stack_locked, set_table_locked, hlk,
      pred64_eq (by omega) (by omega)]
    omega
  · rw [release_stack_allocated, set_table_allocated, hal]
  · rw [release_stack_table, set_table_table, List.length_set, hln]
  · rw [release_stack_table, set_table_table]
    exact getD_set_self _ _ _ _ (by rw [hln]; omega)

/-- C4: two `vector_max` containers constructed in sequence carve from the
same Stack slot; the second one's `begin` is exactly the first one's
`begin` plus `max1 * sizeof(T1)` — where the first's capacity ends — and
the two carved byte regions are disjoint. -/
theorem vmax_sequential_disjoint (sz1 max1 sz2 max2 : Nat) (p : PoolState)
    (hinv : poolInv p) (hlt : p.locked < DEFAULT_MAX_STACKS) :
    ∃ (vm1 : vector_max) (p1 : PoolState) (vm2 : vector_max) (p2 : PoolState),
      vector_max_construct sz1 max1 p = some (vm1, p1) ∧
        vector_max_construct sz2 max2 p1 = some (vm2, p2) ∧
        vm1.st = vm2.st ∧
        vm2.begin = vm1.begin + max1 * sz1 ∧
        (∀ x, vm1.begin ≤ x → x < vm1.begin + max1 * sz1 →
          ¬ (vm2.begin ≤ x ∧ x < vm2.begin + max2 * sz2)) := by
  obtain ⟨hi1, hi2, hi3⟩ := hinv
  have hmax := MAX_eq
  obtain ⟨vm1, p1, hcon1, hst1, hee1, hcap1, hbeg1, hl1, ha1, hlen1, hslot1⟩ :=
    vmax_construct_spec sz1 max1 p ⟨hi1, hi2, hi3⟩ hlt
  have hinv1 : poolInv p1 := by
    have hmr := le_max_right p.allocated (p.locked + 1)
    refine ⟨?_, ?_, ?_⟩
    · rw [hl1, ha1]; omega
    · rw [ha1]; exact max_le hi2 (by omega)
    · rw [hlen1]; exact hi3
  have hlt1 : p1.locked < DEFAULT_MAX_STACKS := by rw [hl1]; exact hlt
  obtain ⟨vm2, p2, hcon2, hst2, hee2, hcap2, hbeg2, hl2, ha2, hlen2, hslot2⟩ :=
    vmax_construct_spec sz2 max2 p1 hinv1 hlt1
  have hne : p1.allocated ≠ p1.locked := by
    have hmr := le_max_right p.allocated (p.locked + 1)
    rw [ha1, hl1]
    omega
  obtain ⟨hfst2, hlk2, hal2, hln2, hoth2, hself2⟩ :=
    acquire_stack_spec p1 hinv1 hlt1
  rw [if_neg hne] at hself2
  have hb2 : vm2.begin = vm1.begin + max1 * sz1 := by
    have hsp : ((acquire_stack p1).2.stacks_.getD p1.locked zstack).sp
        = vm1.begin + max1 * sz1 := by
      rw [hself2, hl1, hslot1]
    rw [hbeg2, hsp]
  refine ⟨vm1, p1, vm2, p2, hcon1, hcon2, ?_, hb2, ?_⟩
  · rw [hst1, hst2, hl1]
  · intro x hx1 hx2 hx3
    obtain ⟨hy1, hy2⟩ := hx3
    rw [hb2] at hy1
    omega

set_option maxRecDepth 16384 in
/-- C4 witness: on the fresh pool, a `vector_max<int>(3)` followed by a
`vector_max<double>(2)` carve from the same slot, with the second region
starting exactly 12 bytes after the first. -/
theorem vmax_sequential_disjoint_witness :
    ∃ (vm1 : vector_max) (p1 : PoolState) (vm2 : vector_max) (p2 : PoolState),
      vector_max_construct 4 3 initPool = some (vm1, p1) ∧
        vector_max_construct 8 2 p1 = some (vm2, p2) ∧
        vm1.st = vm2.st ∧
        vm2.begin = vm1.begin + 3 * 4 ∧
        (∀ x, vm1.begin ≤ x → x < vm1.begin + 3 * 4 →
          ¬ (vm2.begin ≤ x ∧ x < vm2.begin + 2 * 8)) :=
  vmax_sequential_disjoint 4 3 8 2 initPool
    ⟨by decide, by decide, by simp [initPool, List.length_replicate]⟩ (by decide)

/-! ### The growable sa::vector (C6) -/

/-- `vector() : basic_vector<T>(acquire_stack()->sp)`: acquires a stack for
the container's lifetime (locking it) and binds `begin = end = sp`.  The
acquired slot index — the value `acquire_stack()` returned — is recorded
alongside the container.  `none` when `acquire_stack` takes its fatal
path. -/
def vector_construct (p : PoolState) :
    Option ((Nat × basic_vector) × PoolState) :=
  ((acquire_stack p).1).map fun i =>
    ((i, bv_init (((acquire_stack p).2.stacks_.getD i zstack).sp)),
      (acquire_stack p).2)

/-- `~vector() { release_stack(); }`: the destructor only drops the lock;
it never touches any stack's `sp`. -/
def vector_destroy (p : PoolState) : PoolState := release_stack p

set_option maxRecDepth 16384 in
/-- C6 counterexample: on the fresh pool, a growable `sa::vector<int>`
binds slot 0 at `begin = 2^36`; pushing one element advances the vector's
own `end` to `2^36 + 4`, and destroying the vector leaves the stack's `sp`
at `2^36` — its value from before the construction, NOT advanced past the
pushed element (`2^36 + 4 ≤ 2^36` is false) — and a following construction
binds `begin = 2^36` again, reusing the same region rather than consuming
address space. -/
theorem vector_cycle_counterexample :
    ((vector_construct initPool).map (fun r =>
        (r.1.1, r.1.2.begin,
          (push_back 4 (fun _ => 0) r.1.2 [1, 2, 3, 4]).2.end_,
          ((vector_destroy r.2).stacks_.getD 0 zstack).sp,
          (vector_destroy r.2).locked,
          (vector_construct (vector_destroy r.2)).map (fun r2 => r2.1.2.begin))))
        = some (0, 2 ^ 36, 2 ^ 36 + 4, 2 ^ 36, 0, some (2 ^ 36)) ∧
      ¬ (2 ^ 36 + 4 ≤ 2 ^ 36) := by
  constructor
  · decide
  · decide

/-- C6 as amended: constructing a growable `sa::vector`, pushing any
number of elements, and destroying it releases the Stack lock and leaves
the Stack's `sp` exactly where it was when the vector bound it —
`push_back` advances only the vector's own `end`, never the Stack's `sp` —
so repeated construct/destroy cycles reuse the same region of the Stack
instead of permanently consuming address space. -/
theorem vector_lifecycle_sp_unchanged (p : PoolState) (sz : Nat) (m : Mem)
    (ts : List (List Nat)) (hinv : poolInv p)
    (hlt : p.locked < DEFAULT_MAX_STACKS) (hsz : 0 < sz)
    (hlen : ∀ t ∈ ts, t.length = sz) :
    ∃ (i : Nat) (v : basic_vector) (p1 : PoolState),
      vector_construct p = some ((i, v), p1) ∧
        v.begin = (p1.stacks_.getD i zstack).sp ∧
        (pushAll sz m v ts).2.end_ = v.begin + ts.length * sz ∧
        (vector_destroy p1).locked = p.locked ∧
        ((vector_destroy p1).stacks_.getD i zstack).sp = v.begin := by
  obtain ⟨h1, h2, h3⟩ := hinv
  have hmax := MAX_eq
  have hw := W64_eq
  obtain ⟨hfst, hlk, hal, hln, hoth, hself⟩ :=
    acquire_stack_spec p ⟨h1, h2, h3⟩ hlt
  refine ⟨p.locked,
    bv_init (((acquire_stack p).2.stacks_.getD p.locked zstack).sp),
    (acquire_stack p).2, ?_, rfl, ?_, ?_, ?_⟩
  · simp only [vector_construct]
    rw [hfst, option_map_some]
  · obtain ⟨-, he, -, -⟩ := pushAll_spec sz hsz ts m
      (bv_init (((acquire_stack p).2.stacks_.getD p.locked zstack).sp)) hlen
    rw [he]
    rfl
  · show (release_stack (acquire_stack p).2).locked = p.locked
    rw [release_stack_locked, hlk, pred64_eq (by omega) (by omega)]
    omega
  · show ((release_stack (acquire_stack p).2).stacks_.getD p.locked zstack).sp
        = _
    rw [release_stack_table]
    rfl

set_option maxRecDepth 16384 in
/-- C6 amended-claim witness: on the fresh pool with two pushed 4-byte
elements, the construct/push/destroy cycle restores `locked` and leaves the
slot's `sp` at the vector's `begin`. -/
theorem vector_lifecycle_sp_unchanged_witness :
    ∃ (i : Nat) (v : basic_vector) (p1 : PoolState),
      vector_construct initPool = some ((i, v), p1) ∧
        v.begin = (p1.stacks_.getD i zstack).sp ∧
        (pushAll 4 (fun _ => 0) v [[1, 2, 3, 4], [5, 6, 7, 8]]).2.end_
          = v.begin + 2 * 4 ∧
        (vector_destroy p1).locked = initPool.locked ∧
        ((vector_destroy p1).stacks_.getD i zstack).sp = v.begin :=
  vector_lifecycle_sp_unchanged initPool 4 (fun _ => 0)
    [[1, 2, 3, 4], [5, 6, 7, 8]]
    ⟨by decide, by decide, by simp [initPool, List.length_replicate]⟩
    (by decide) (by decide) (by decide)

/-! ### vector_pool (C5) -/

/-- Size of `T *` on the 64-bit machine: the free list stores pointers. -/
def PTR_SIZE : Nat := 8

/-- Little-endian object representation of a pointer value in `n` bytes. -/
def encodeLE : Nat → Nat → List Nat
  | 0, _ => []
  | n + 1, a => a % 256 :: encodeLE n (a / 256)

/-- Pointer value read back from its object representation. -/
def decodeLE : List Nat → Nat
  | [] => 0
  | b :: bs => b + 256 * decodeLE bs

theorem encodeLE_length (n : Nat) : ∀ a : Nat, (encodeLE n a).length = n := by
  induction n with
  | zero => intro a; rfl
  | succ n ih =>
    intro a
    show (a % 256 :: encodeLE n (a / 256)).length = n + 1
    simp [ih]

theorem decode_encode (n : Nat) : ∀ a : Nat,
    decodeLE (encodeLE n a) = a % 256 ^ n := by
  induction n with
  | zero =>
    intro a
    simp [encodeLE, decodeLE, Nat.mod_one]
  | succ n ih =>
    intro a
    show decodeLE (a % 256 :: encodeLE n (a / 256)) = a % 256 ^ (n + 1)
    show a % 256 + 256 * decodeLE (encodeLE n (a / 256)) = a % 256 ^ (n + 1)
    rw [ih, pow_succ']
    exact Nat.mod_mul.symm

theorem size_mk (sz e b : Nat) :
    size sz (basic_vector.mk e b)
      = (((b : Int) - (e : Int)) % (W64 : Int)).toNat / sz := rfl

theorem size_of_empty (sz B : Nat) : size sz (basic_vector.mk B B) = 0 := by
  rw [size_mk]
  simp

theorem size_of_one_ptr (B : Nat) :
    size PTR_SIZE (basic_vector.mk (B + PTR_SIZE) B) = 2 ^ 61 - 1 := by
  rw [size_mk]
  have h1 : ((B : Int) - ((B + PTR_SIZE : Nat) : Int)) = -8 := by
    push_cast [PTR_SIZE]
    ring
  rw [h1]
  decide

/-- `vector_pool<T>`: the growable `vector<T>` part (`data`, the inherited
container) plus the `vector<T *> free_list`; each lives on its own acquired
stack. -/
structure vector_pool where
  data : basic_vector
  free_list : basic_vector
deriving DecidableEq

/-- `alloc(const T &t)`: `if (free_list.size()) { auto tn = free_list.pop();
return *tn = t; } else { push_back(t); return back(); }` — the source
branches on the truthiness of the (buggy) `size()` value.  Returns the
address of the returned reference, the new memory and the new container. -/
def vp_alloc (sz : Nat) (m : Mem) (p : vector_pool) (t : List Nat) :
    Nat × Mem × vector_pool :=
  if size PTR_SIZE p.free_list ≠ 0 then
    (decodeLE (readBytes m (p.free_list.end_ - PTR_SIZE) PTR_SIZE),
      writeBytes m
        (decodeLE (readBytes m (p.free_list.end_ - PTR_SIZE) PTR_SIZE)) t,
      { p with free_list :=
          { p.free_list with end_ := p.free_list.end_ - PTR_SIZE } })
  else
    (p.data.end_, (push_back sz m p.data t).1,
      { p with data := (push_back sz m p.data t).2 })

/-- `reuseable(T &t)`: asserts `&t` lies within `[begin, end)` of the data
vector (in the C5 scenario this holds: the freed address is the first data
slot) and does `free_list.push_back(&t)`. -/
def vp_reuseable (m : Mem) (p : vector_pool) (addr : Nat) :
    Mem × vector_pool :=
  ((push_back PTR_SIZE m p.free_list (encodeLE PTR_SIZE addr)).1,
    { p with free_list :=
        (push_back PTR_SIZE m p.free_list (encodeLE PTR_SIZE addr)).2 })

/-- A `vector_pool` just constructed: the data vector bound at address `A`
of one stack, the free list bound at address `B` of another. -/
def vp_empty (A B : Nat) : vector_pool := ⟨bv_init A, bv_init B⟩

/-- The C5 call sequence `alloc(a); alloc(b); reuseable(first result);
alloc(c)`: returns (address returned for `a`, address returned for `c`,
final memory, final container). -/
def vp_scenario (sz : Nat) (m0 : Mem) (p0 : vector_pool) (a b c : List Nat) :
    Nat × Nat × Mem × vector_pool :=
  let s1 := vp_alloc sz m0 p0 a
  let s2 := vp_alloc sz s1.2.1 s1.2.2 b
  let s3 := vp_reuseable s2.2.1 s2.2.2 s1.1
  let s4 := vp_alloc sz s3.1 s3.2 c
  (s1.1, s4.1, s4.2.1, s4.2.2)

theorem vp_empty_mk (A B : Nat) :
    vp_empty A B = vector_pool.mk (basic_vector.mk A A) (basic_vector.mk B B) := rfl

/-- Evaluation of `alloc` when the free list is empty (the `else` branch:
`push_back(t); return back();`). -/
theorem vp_alloc_else (sz : Nat) (m : Mem) (de db fe fb : Nat) (t : List Nat)
    (h : size PTR_SIZE (basic_vector.mk fe fb) = 0) :
    vp_alloc sz m
        (vector_pool.mk (basic_vector.mk de db) (basic_vector.mk fe fb)) t
      = (de, writeBytes m de t,
          vector_pool.mk (basic_vector.mk (de + sz) db)
            (basic_vector.mk fe fb)) := by
  simp only [vp_alloc]
  rw [if_neg (show ¬ (size PTR_SIZE (basic_vector.mk fe fb) ≠ 0) from by
    rw [h]; simp)]
  rfl

/-- Evaluation of `alloc` when the free list is non-empty (the `then`
branch: `auto tn = free_list.pop(); return *tn = t;`). -/
theorem vp_alloc_then (sz : Nat) (m : Mem) (de db fe fb : Nat) (t : List Nat)
    (h : size PTR_SIZE (basic_vector.mk fe fb) ≠ 0) :
    vp_alloc sz m
        (vector_pool.mk (basic_vector.mk de db) (basic_vector.mk fe fb)) t
      = (decodeLE (readBytes m (fe - PTR_SIZE) PTR_SIZE),
          writeBytes m (decodeLE (readBytes m (fe - PTR_SIZE) PTR_SIZE)) t,
          vector_pool.mk (basic_vector.mk de db)
            (basic_vector.mk (fe - PTR_SIZE) fb)) := by
  simp only [vp_alloc]
  rw [if_pos h]

/-- Evaluation of `reuseable`: the address is appended to the free list. -/
theorem vp_reuseable_mk (m : Mem) (de db fe fb addr : Nat) :
    vp_reuseable m
        (vector_pool.mk (basic_vector.mk de db) (basic_vector.mk fe fb)) addr
      = (writeBytes m fe (encodeLE PTR_SIZE addr),
          vector_pool.mk (basic_vector.mk de db)
            (basic_vector.mk (fe + PTR_SIZE) fb)) := rfl

/-- C5: for a `vector_pool` starting empty, after `alloc(a)`, `alloc(b)`,
`reuseable(first result)`, `alloc(c)`, the reference `alloc(c)` returns has
the same address as the one `alloc(a)` returned, and reading that slot
afterwards yields `c`'s bytes — not `a`'s. -/
theorem vp_alloc_reuses_freed_slot (sz A B : Nat) (m0 : Mem)
    (a b c : List Nat) (hsz : 0 < sz) (hA : A < 2 ^ 64)
    (hclen : c.length = sz) (hca : c ≠ a) :
    (vp_scenario sz m0 (vp_empty A B) a b c).2.1
        = (vp_scenario sz m0 (vp_empty A B) a b c).1 ∧
      readBytes (vp_scenario sz m0 (vp_empty A B) a b c).2.2.1
          (vp_scenario sz m0 (vp_empty A B) a b c).1 sz = c ∧
      readBytes (vp_scenario sz m0 (vp_empty A B) a b c).2.2.1
          (vp_scenario sz m0 (vp_empty A B) a b c).1 sz ≠ a := by
  have hread : readBytes (writeBytes (writeBytes (writeBytes m0 A a)
      (A + sz) b) B (encodeLE PTR_SIZE A)) B PTR_SIZE
      = encodeLE PTR_SIZE A := by
    rw [← encodeLE_length PTR_SIZE A]
    exact readBytes_writeBytes _ _ _
  have hdec : decodeLE (readBytes (writeBytes (writeBytes (writeBytes m0 A a)
      (A + sz) b) B (encodeLE PTR_SIZE A)) B PTR_SIZE) = A := by
    rw [hread, decode_encode]
    have h256 : (256 : Nat) ^ PTR_SIZE = 2 ^ 64 := by norm_num [PTR_SIZE]
    rw [h256]
    exact Nat.mod_eq_of_lt hA
  have hone : size PTR_SIZE (basic_vector.mk (B + PTR_SIZE) B) ≠ 0 := by
    rw [size_of_one_ptr]
    decide
  have hfinal : vp_scenario sz m0 (vp_empty A B) a b c
      = (A, A, writeBytes (writeBytes (writeBytes (writeBytes m0 A a)
          (A + sz) b) B (encodeLE PTR_SIZE A)) A c,
         vector_pool.mk (basic_vector.mk (A + sz + sz) A)
          (basic_vector.mk B B)) := by
    simp only [vp_scenario, vp_empty_mk]
    rw [vp_alloc_else sz m0 A A B B a (size_of_empty PTR_SIZE B)]
    dsimp only
    rw [vp_alloc_else sz (writeBytes m0 A a) (A + sz) A B B b
      (size_of_empty PTR_SIZE B)]
    dsimp only
    rw [vp_reuseable_mk]
    dsimp only
    rw [vp_alloc_then sz (writeBytes (writeBytes (writeBytes m0 A a)
        (A + sz) b) B (encodeLE PTR_SIZE A)) (A + sz + sz) A (B + PTR_SIZE) B
      c hone]
    dsimp only
    rw [Nat.add_sub_cancel, hdec]
  rw [hfinal]
  dsimp only
  refine ⟨rfl, ?_, ?_⟩
  · rw [← hclen]
    exact readBytes_writeBytes _ _ _
  · rw [← hclen, readBytes_writeBytes _ _ _]
    exact hca

/-- C5 witness: with 4-byte elements at data address 0 and free list at
address 100, the scenario returns the slot of `a` for `c` and the slot then
reads back as `c`. -/
theorem vp_alloc_reuses_freed_slot_witness :
    (vp_scenario 4 (fun _ => 0) (vp_empty 0 100) [1, 1, 1, 1] [2, 2, 2, 2]
        [3, 3, 3, 3]).2.1
        = (vp_scenario 4 (fun _ => 0) (vp_empty 0 100) [1, 1, 1, 1]
            [2, 2, 2, 2] [3, 3, 3, 3]).1 ∧
      readBytes (vp_scenario 4 (fun _ => 0) (vp_empty 0 100) [1, 1, 1, 1]
            [2, 2, 2, 2] [3, 3, 3, 3]).2.2.1
          (vp_scenario 4 (fun _ => 0) (vp_empty 0 100) [1, 1, 1, 1]
            [2, 2, 2, 2] [3, 3, 3, 3]).1 4 = [3, 3, 3, 3] ∧
      readBytes (vp_scenario 4 (fun _ => 0) (vp_empty 0 100) [1, 1, 1, 1]
            [2, 2, 2, 2] [3, 3, 3, 3]).2.2.1
          (vp_scenario 4 (fun _ => 0) (vp_empty 0 100) [1, 1, 1, 1]
            [2, 2, 2, 2] [3, 3, 3, 3]).1 4 ≠ [1, 1, 1, 1] :=
  vp_alloc_reuses_freed_slot 4 0 100 (fun _ => 0) [1, 1, 1, 1] [2, 2, 2, 2]
    [3, 3, 3, 3] (by decide) (by decide) (by decide) (by decide)

end sa
